import Mathlib

/-!
Shallow embedding of `src/tools/federal_register_api.py` (class
`FederalRegisterAPI` and its command line entry point `main`).

Python strings are modelled as Lean `String`/`List Char`; JSON fields that may
be absent or `null` are modelled as `Option String`; Python truthiness of such
a field (`if not doc.get('pdf_url')`) is `optTruthy`.  Network and filesystem
effects are modelled as explicit oracles (per-attempt PDF fetch outcomes,
per-document save outcomes), so every function of the source becomes a pure,
executable Lean function of its inputs and oracles.
-/

namespace FedReg

/-- Python truthiness of an optional string field: `None` and `""` are falsy,
every other string is truthy. -/
def optTruthy (o : Option String) : Bool :=
  o.getD "" != ""

/-- A document record as returned by the Federal Register
`documents.json` endpoint, with the fields requested by the client's
`fields[]` projection.  Every field may be missing or `null`; each agency
object contributes an optional `name` field. -/
structure Doc where
  title : Option String
  abstract : Option String
  html_url : Option String
  pdf_url : Option String
  publication_date : Option String
  agencies : List (Option String)
  document_number : Option String
  type : Option String
deriving DecidableEq

/-! ### String helpers -/

theorem strAppend_assoc (a b c : String) : a ++ b ++ c = a ++ (b ++ c) := by
  apply String.ext
  simp [String.data_append]

/-- Boolean test that `pat` occurs at the head of `l` (character-wise). -/
def startsWithL : List Char → List Char → Bool
  | [], _ => true
  | _ :: _, [] => false
  | a :: as, b :: bs => a == b && startsWithL as bs

/-- Boolean test that `pat` occurs somewhere inside `l`, modelling Python's
substring operator `pat in l`. -/
def occursInL (pat : List Char) : List Char → Bool
  | [] => startsWithL pat []
  | c :: t => startsWithL pat (c :: t) || occursInL pat t

theorem startsWithL_append (pat : List Char) :
    ∀ l r : List Char, startsWithL pat l = true → startsWithL pat (l ++ r) = true := by
  induction pat with
  | nil => intro l r _; rfl
  | cons a as ih =>
    intro l r h
    cases l with
    | nil => simp [startsWithL] at h
    | cons b bs =>
      simp only [startsWithL, Bool.and_eq_true] at h
      simp only [List.cons_append, startsWithL, Bool.and_eq_true]
      exact ⟨h.1, ih bs r h.2⟩

theorem occursInL_of_startsWithL (pat l : List Char) (h : startsWithL pat l = true) :
    occursInL pat l = true := by
  cases l with
  | nil => exact h
  | cons c t => simp [occursInL, h]

theorem occursInL_append (pat : List Char) :
    ∀ l r : List Char, occursInL pat l = true → occursInL pat (l ++ r) = true := by
  intro l
  induction l with
  | nil =>
    intro r h
    exact occursInL_of_startsWithL pat r (by
      have h0 : startsWithL pat ([] ++ r) = true := startsWithL_append pat [] r h
      simpa using h0)
  | cons c t ih =>
    intro r h
    simp only [occursInL, Bool.or_eq_true] at h
    rcases h with h | h
    · have := startsWithL_append pat (c :: t) r h
      simp only [List.cons_append] at this ⊢
      simp [occursInL, this]
    · simp only [List.cons_append, occursInL, Bool.or_eq_true]
      exact Or.inr (ih r h)

theorem startsWithL_map (f : Char → Char) (pat : List Char) :
    ∀ l : List Char, startsWithL pat l = true →
      startsWithL (pat.map f) (l.map f) = true := by
  induction pat with
  | nil => intro l _; rfl
  | cons a as ih =>
    intro l h
    cases l with
    | nil => simp [startsWithL] at h
    | cons b bs =>
      simp only [startsWithL, Bool.and_eq_true, beq_iff_eq] at h
      simp only [List.map_cons, startsWithL, Bool.and_eq_true, beq_iff_eq]
      exact ⟨by rw [h.1], ih bs h.2⟩

theorem occursInL_map (f : Char → Char) (pat : List Char) :
    ∀ l : List Char, occursInL pat l = true →
      occursInL (pat.map f) (l.map f) = true := by
  intro l
  induction l with
  | nil =>
    intro h
    exact occursInL_of_startsWithL _ _ (startsWithL_map f pat [] h)
  | cons c t ih =>
    intro h
    simp only [occursInL, Bool.or_eq_true] at h
    rcases h with h | h
    · simp only [List.map_cons, occursInL, Bool.or_eq_true]
      exact Or.inl (startsWithL_map f pat (c :: t) h)
    · simp only [List.map_cons, occursInL, Bool.or_eq_true]
      exact Or.inr (ih h)

/-! ### `api_request` and `search_documents` -/

/-- Model of `FederalRegisterAPI.api_request`: the transport either returns a
parsed JSON payload (here: the decoded `results` list) or raises; any raised
exception is caught and turned into `None`. -/
def api_request (transport : Except String (List Doc)) : Option (List Doc) :=
  match transport with
  | Except.ok payload => some payload
  | Except.error _ => none

/-- Keyword list `ai_keywords` from `search_documents`. -/
def aiKeywords : List String :=
  ["artificial intelligence", "machine learning", "neural network",
   "deep learning", "ai safety", "ai governance", "algorithmic",
   "automated decision", "ai system", "ai model", "ai technology"]

/-- Character-wise lower-casing, modelling `str.lower()`. -/
def lowerChars (l : List Char) : List Char :=
  l.map Char.toLower

/-- Model of `content = f"{title} {abstract}"` over the lower-cased title and
abstract, where a missing field defaults to `''` (`doc.get('title') or ''`). -/
def contentChars (doc : Doc) : List Char :=
  lowerChars (doc.title.getD "").data ++ ' ' :: lowerChars (doc.abstract.getD "").data

/-- Model of `any(keyword in content for keyword in ai_keywords)`. -/
def keywordMatch (doc : Doc) : Bool :=
  aiKeywords.any fun k => occursInL k.data (contentChars doc)

/-- The filtering loop of `search_documents`: skip records without a truthy
`pdf_url` (`continue`), keep records whose lower-cased title+abstract contains
an AI keyword, drop the rest. -/
def collectAiDocs : List Doc → List Doc
  | [] => []
  | doc :: rest =>
    if !optTruthy doc.pdf_url then collectAiDocs rest
    else if keywordMatch doc then doc :: collectAiDocs rest
    else collectAiDocs rest

/-- Model of `FederalRegisterAPI.search_documents`: on a falsy API response
return `[]`, otherwise run the keyword/PDF filter loop over `results` and
truncate to `max_docs` (`pdf_results[:self.max_docs]`). -/
def search_documents (data : Option (List Doc)) (maxDocs : Nat) : List Doc :=
  match data with
  | none => []
  | some results => (collectAiDocs results).take maxDocs

theorem collectAiDocs_eq_filter (results : List Doc) :
    collectAiDocs results =
      results.filter fun doc => optTruthy doc.pdf_url && keywordMatch doc := by
  induction results with
  | nil => rfl
  | cons doc rest ih =>
    by_cases hp : optTruthy doc.pdf_url = true
    · by_cases hk : keywordMatch doc = true
      · simp [collectAiDocs, hp, hk, List.filter_cons, ih]
      · simp [collectAiDocs, hp, hk, List.filter_cons, ih]
    · have hp' : optTruthy doc.pdf_url = false := by
        cases h : optTruthy doc.pdf_url
        · rfl
        · exact absurd h hp
      simp [collectAiDocs, hp', List.filter_cons, ih]

/-! ### `download_pdf` -/

/-- Characters of Python's `\s` class (ASCII). -/
def isSpaceChar (c : Char) : Bool :=
  c == ' ' || c == '\t' || c == '\n' || c == '\r' || c == '\x0b' || c == '\x0c'

/-- Model of `str.strip()`: drop leading and trailing whitespace. -/
def stripEnds (s : String) : String :=
  String.mk (((s.data.dropWhile isSpaceChar).reverse.dropWhile isSpaceChar).reverse)

/-- One iteration of the page loop of `download_pdf`: the state is
`(page_num, text_content)`; if the page's text `t` is truthy, append the
`--- Page N ---` marker, the stripped text and an empty string. -/
def pageStep (st : Nat × List String) (t : String) : Nat × List String :=
  if t != "" then
    (st.1 + 1, st.2 ++ ["--- Page " ++ toString st.1 ++ " ---", stripEnds t, ""])
  else (st.1 + 1, st.2)

/-- The page loop of `download_pdf`: starting from `text_content = []` and
1-based `page_num` counting every page. -/
def extractTextContent (pages : List String) : List String :=
  (pages.foldl pageStep (1, [])).2

theorem pageStep_empty (n : Nat) (acc : List String) (t : String) (ht : t = "") :
    pageStep (n, acc) t = (n + 1, acc) := by
  simp [pageStep, ht]

theorem pageStep_nonempty (n : Nat) (acc : List String) (t : String) (ht : t ≠ "") :
    pageStep (n, acc) t =
      (n + 1, acc ++ ["--- Page " ++ toString n ++ " ---", stripEnds t, ""]) := by
  simp [pageStep, bne_iff_ne, ht]

/-- Modelled from the spec's words (§4.3): for each page at 1-based position
`n` yielding non-empty text, a `--- Page N ---` marker line, the page's
trimmed text and a blank separator line, in source page order; pages yielding
no text contribute nothing. -/
def specPageBlocks : Nat → List String → List String
  | _, [] => []
  | n, t :: rest =>
    (if t = "" then [] else ["--- Page " ++ toString n ++ " ---", stripEnds t, ""]) ++
      specPageBlocks (n + 1) rest

theorem extractTextContent_go (pages : List String) :
    ∀ (n : Nat) (acc : List String),
      (pages.foldl pageStep (n, acc)).2 = acc ++ specPageBlocks n pages := by
  induction pages with
  | nil => intro n acc; simp [specPageBlocks]
  | cons t rest ih =>
    intro n acc
    by_cases ht : t = ""
    · rw [List.foldl_cons, pageStep_empty n acc t ht, ih, specPageBlocks, if_pos ht,
        List.nil_append]
    · rw [List.foldl_cons, pageStep_nonempty n acc t ht, ih, specPageBlocks, if_neg ht,
        List.append_assoc]

theorem extractTextContent_eq_specPageBlocks (pages : List String) :
    extractTextContent pages = specPageBlocks 1 pages := by
  simpa using extractTextContent_go pages 1 []

theorem specPageBlocks_eq_nil (pages : List String) :
    ∀ n : Nat, specPageBlocks n pages = [] ↔ ∀ t ∈ pages, t = "" := by
  induction pages with
  | nil => intro n; simp [specPageBlocks]
  | cons t rest ih =>
    intro n
    by_cases ht : t = ""
    · simp [specPageBlocks, ht, ih]
    · simp [specPageBlocks, ht]

/-- Outcome of one attempt of the `download_pdf` loop body, before the result
test: either the fetch or the PDF parse raised, or the parse succeeded and the
pages yielded the given per-page text (`page.extract_text()` or `''`). -/
inductive Attempt where
  | failure : Attempt
  | pages : List String → Attempt
deriving DecidableEq

/-- A trace of a `download_pdf` call: the returned value, the number of loop
iterations actually entered, and the number of `time.sleep(2)` calls made. -/
structure PdfRun where
  result : Option String
  attemptsUsed : Nat
  sleeps : Nat
deriving DecidableEq

/-- The `for attempt in range(max_retries)` loop of `download_pdf`.
`remaining` is the number of loop iterations left (structural fuel),
`attempt` the 0-based loop counter, `sleeps` the sleeps so far.  A successful
parse returns immediately: the joined text if any page yielded text, `None`
otherwise (no retry in the no-text case).  A raised fetch/parse error sleeps
2 seconds — only when `attempt < max_retries - 1` — and continues. -/
def downloadPdfGo (oracle : Nat → Attempt) (maxRetries : Nat) :
    Nat → Nat → Nat → PdfRun
  | attempt, sleeps, 0 => ⟨none, attempt, sleeps⟩
  | attempt, sleeps, remaining + 1 =>
    match oracle attempt with
    | Attempt.pages ps =>
      if extractTextContent ps = [] then ⟨none, attempt + 1, sleeps⟩
      else ⟨some (String.intercalate "\n" (extractTextContent ps)), attempt + 1, sleeps⟩
    | Attempt.failure =>
      if attempt < maxRetries - 1 then
        downloadPdfGo oracle maxRetries (attempt + 1) (sleeps + 1) remaining
      else downloadPdfGo oracle maxRetries (attempt + 1) sleeps remaining

/-- Model of `FederalRegisterAPI.download_pdf`: falsy `pdf_url` returns `None`
at once; otherwise run the retry loop `max_retries` times. -/
def download_pdf (pdf_url : String) (oracle : Nat → Attempt) (maxRetries : Nat) : PdfRun :=
  if pdf_url = "" then ⟨none, 0, 0⟩
  else downloadPdfGo oracle maxRetries 0 0 maxRetries

theorem downloadPdfGo_all_failures (oracle : Nat → Attempt) (m : Nat)
    (hfail : ∀ k, k < m → oracle k = Attempt.failure) :
    ∀ (remaining attempt sleeps : Nat), attempt + remaining = m →
      downloadPdfGo oracle m attempt sleeps remaining = ⟨none, m, sleeps + (remaining - 1)⟩ := by
  intro remaining
  induction remaining with
  | zero =>
    intro attempt sleeps h
    have hm : attempt = m := by omega
    subst hm
    simp [downloadPdfGo]
  | succ r ih =>
    intro attempt sleeps h
    have ha : oracle attempt = Attempt.failure := hfail attempt (by omega)
    simp only [downloadPdfGo, ha]
    by_cases hlt : attempt < m - 1
    · rw [if_pos hlt, ih (attempt + 1) (sleeps + 1) (by omega)]
      have hs : sleeps + 1 + (r - 1) = sleeps + (r + 1 - 1) := by omega
      rw [hs]
    · rw [if_neg hlt]
      have hr : r = 0 := by omega
      subst hr
      have hm : attempt + 1 = m := by omega
      simp [downloadPdfGo, hm]

/-! ### `save_document`: filename sanitization -/

/-- Characters of Python's `\w` class (ASCII): letters, digits, underscore. -/
def isWordChar (c : Char) : Bool :=
  c.isAlphanum || c == '_'

/-- Characters of the class `[-\s]` used by the collapsing substitution. -/
def isDashSpace (c : Char) : Bool :=
  isSpaceChar c || c == '-'

/-- Model of `re.sub(r'[^\w\s-]', '', title)`: delete every character outside
word characters, whitespace and hyphen. -/
def stripChars (l : List Char) : List Char :=
  l.filter fun c => isWordChar c || isSpaceChar c || c == '-'

/-- State machine for `re.sub(r'[-\s]+', '-', s)`: each maximal run of
hyphen/whitespace characters is replaced by a single `'-'`; `prevDash` records
whether we are inside such a run. -/
def collapseGo (prevDash : Bool) : List Char → List Char
  | [] => []
  | c :: rest =>
    if isDashSpace c then
      if prevDash then collapseGo true rest else '-' :: collapseGo true rest
    else c :: collapseGo false rest

/-- Model of `re.sub(r'[-\s]+', '-', s)`. -/
def collapseRuns (l : List Char) : List Char :=
  collapseGo false l

/-- The characters of `safe_title` after the two substitutions and the
`[:50]` truncation. -/
def safeTitleChars (title : String) : List Char :=
  (collapseRuns (stripChars title.data)).take 50

/-- Model of `filename = f"{date}-{safe_title}.txt"` in `save_document`. -/
def saveFilename (title date : String) : String :=
  date ++ "-" ++ String.mk (safeTitleChars title) ++ ".txt"

theorem stripChars_mem (l : List Char) (c : Char) (h : c ∈ stripChars l) :
    isWordChar c = true ∨ isDashSpace c = true := by
  rcases (List.mem_filter.mp h).2 with h2
  rcases Bool.or_eq_true _ _ |>.mp h2 with h3 | h3
  · rcases Bool.or_eq_true _ _ |>.mp h3 with h4 | h4
    · exact Or.inl h4
    · exact Or.inr (by simp [isDashSpace, h4])
  · exact Or.inr (by simp [isDashSpace, h3])

theorem collapseGo_mem (b : Bool) (l : List Char)
    (hl : ∀ c ∈ l, isWordChar c = true ∨ isDashSpace c = true) :
    ∀ c ∈ collapseGo b l, isWordChar c = true ∨ c = '-' := by
  induction l generalizing b with
  | nil => intro c hc; simp [collapseGo] at hc
  | cons a rest ih =>
    intro c hc
    have ha := hl a (List.mem_cons_self a rest)
    have hrest : ∀ x ∈ rest, isWordChar x = true ∨ isDashSpace x = true :=
      fun x hx => hl x (List.mem_cons_of_mem a hx)
    by_cases hd : isDashSpace a = true
    · simp only [collapseGo, hd, if_pos] at hc
      cases b with
      | true => exact ih true hrest c (by simpa using hc)
      | false =>
        rcases List.mem_cons.mp (by simpa using hc) with h | h
        · exact Or.inr h
        · exact ih true hrest c h
    · have hd' : isDashSpace a = false := by
        cases hda : isDashSpace a
        · rfl
        · exact absurd hda hd
      simp only [collapseGo, hd', Bool.false_eq_true, if_neg, ite_false] at hc
      rcases List.mem_cons.mp (by simpa using hc) with h | h
      · subst h
        rcases ha with h | h
        · exact Or.inl h
        · exact absurd h hd
      · exact ih false hrest c h

/-! ### `save_document`: file body -/

/-- The `self.web_base` constant. -/
def webBase : String :=
  "https://www.federalregister.gov"

/-- The divider `'=' * 80`. -/
def eqLine : String :=
  String.mk (List.replicate 80 '=')

/-- Model of the body `document_text` built by `save_document`: the header
f-string, then `+=` of the abstract section when the abstract is truthy, then
`+=` of either the full PDF content or the PDF-URL note. -/
def document_text (doc : Doc) (pdf_content : Option String) (now : String) : String :=
  let title := doc.title.getD "Untitled Document"
  let date := doc.publication_date.getD "unknown"
  let agency_names := String.intercalate ", " (doc.agencies.map fun a => a.getD "Unknown")
  let base :=
    "Title: " ++ title ++ "\nDate: " ++ date ++
    "\nDocument Number: " ++ doc.document_number.getD "" ++
    "\nType: " ++ doc.type.getD "Unknown" ++
    "\nAgencies: " ++ agency_names ++
    "\nHTML URL: " ++ webBase ++ doc.html_url.getD "" ++
    "\nPDF URL: " ++ doc.pdf_url.getD "" ++
    "\nDownloaded: " ++ now ++ "\n" ++ eqLine ++ "\n\n"
  let withAbstract :=
    if optTruthy doc.abstract then
      base ++ ("ABSTRACT:\n" ++ doc.abstract.getD "" ++ "\n\n") ++ (eqLine ++ "\n\n")
    else base
  if optTruthy pdf_content then
    withAbstract ++ "FULL DOCUMENT CONTENT:\n\n" ++ pdf_content.getD ""
  else withAbstract ++ "Note: Full content available via PDF URL above.\n"

/-- Modelled from the spec's words (§4.4): the fixed-format header block —
title, date, document number, type, agency names joined by comma, absolute
HTML URL, PDF URL, download timestamp, divider line. -/
def specHeaderBlock (doc : Doc) (now : String) : String :=
  "Title: " ++ doc.title.getD "Untitled Document" ++
  "\nDate: " ++ doc.publication_date.getD "unknown" ++
  "\nDocument Number: " ++ doc.document_number.getD "" ++
  "\nType: " ++ doc.type.getD "Unknown" ++
  "\nAgencies: " ++ String.intercalate ", " (doc.agencies.map fun a => a.getD "Unknown") ++
  "\nHTML URL: " ++ webBase ++ doc.html_url.getD "" ++
  "\nPDF URL: " ++ doc.pdf_url.getD "" ++
  "\nDownloaded: " ++ now ++ "\n" ++ eqLine ++ "\n\n"

/-- Modelled from the spec's words (§4.4): the abstract, if present, under an
`ABSTRACT` heading with a divider. -/
def specAbstractSection (doc : Doc) : String :=
  if optTruthy doc.abstract then
    "ABSTRACT:\n" ++ doc.abstract.getD "" ++ "\n\n" ++ eqLine ++ "\n\n"
  else ""

/-- Modelled from the spec's words (§4.4): either the full extracted text
under a `FULL DOCUMENT CONTENT` heading, or a note that only the PDF URL is
available. -/
def specContentSection (pdf_content : Option String) : String :=
  if optTruthy pdf_content then "FULL DOCUMENT CONTENT:\n\n" ++ pdf_content.getD ""
  else "Note: Full content available via PDF URL above.\n"

/-- Modelled from the spec's words (§4.4): header block, then abstract
section, then content section. -/
def specFileBody (doc : Doc) (pdf_content : Option String) (now : String) : String :=
  specHeaderBlock doc now ++ specAbstractSection doc ++ specContentSection pdf_content

/-- The part of the header before the embedded timestamp. -/
def headerBeforeTs (doc : Doc) : String :=
  "Title: " ++ doc.title.getD "Untitled Document" ++
  "\nDate: " ++ doc.publication_date.getD "unknown" ++
  "\nDocument Number: " ++ doc.document_number.getD "" ++
  "\nType: " ++ doc.type.getD "Unknown" ++
  "\nAgencies: " ++ String.intercalate ", " (doc.agencies.map fun a => a.getD "Unknown") ++
  "\nHTML URL: " ++ webBase ++ doc.html_url.getD "" ++
  "\nPDF URL: " ++ doc.pdf_url.getD "" ++
  "\nDownloaded: "

/-- Everything following the embedded timestamp. -/
def afterTs (doc : Doc) (pdf_content : Option String) : String :=
  "\n" ++ eqLine ++ "\n\n" ++ specAbstractSection doc ++ specContentSection pdf_content

theorem document_text_decomp (doc : Doc) (pdf_content : Option String) (now : String) :
    document_text doc pdf_content now = headerBeforeTs doc ++ now ++ afterTs doc pdf_content := by
  apply String.ext
  by_cases ha : optTruthy doc.abstract = true
  · by_cases hp : optTruthy pdf_content = true
    · simp [document_text, headerBeforeTs, afterTs, specAbstractSection, specContentSection,
        ha, hp, String.data_append, List.append_assoc]
    · simp [document_text, headerBeforeTs, afterTs, specAbstractSection, specContentSection,
        ha, hp, String.data_append, List.append_assoc]
  · by_cases hp : optTruthy pdf_content = true
    · simp [document_text, headerBeforeTs, afterTs, specAbstractSection, specContentSection,
        ha, hp, String.data_append, List.append_assoc]
    · simp [document_text, headerBeforeTs, afterTs, specAbstractSection, specContentSection,
        ha, hp, String.data_append, List.append_assoc]

/-! ### `run_comprehensive_search`: cross-term deduplication -/

/-- One step of the merge loop: `doc_id = doc.get('document_number'); if
doc_id and doc_id not in all_documents: all_documents[doc_id] = doc`.  The
insertion-ordered Python dict is modelled as an association list with
append. -/
def addDoc (m : List (String × Doc)) (doc : Doc) : List (String × Doc) :=
  match doc.document_number with
  | none => m
  | some i => if i != "" && (m.lookup i).isNone then m ++ [(i, doc)] else m

/-- The fixed `search_terms` list of `run_comprehensive_search`. -/
def searchTerms : List String :=
  ["artificial intelligence", "machine learning", "AI safety", "AI governance",
   "algorithmic accountability", "automated decision making", "neural networks",
   "deep learning"]

/-- Model of the term loop of `run_comprehensive_search`: for each term, fold
the term's search results into the dedup mapping. -/
def comprehensiveDedup (search_terms : List String) (results : String → List Doc) :
    List (String × Doc) :=
  search_terms.foldl (fun m term => (results term).foldl addDoc m) []

/-- Concatenation of the per-term result sequences, in term order. -/
def termResults (results : String → List Doc) : List String → List Doc
  | [] => []
  | t :: ts => results t ++ termResults results ts

/-- Boolean test that a record carries the (truthy) identifier `d`. -/
def hasId (d : String) (doc : Doc) : Bool :=
  doc.document_number == some d

/-- Boolean test that a dedup entry is keyed by `d`. -/
def keyIs (d : String) (p : String × Doc) : Bool :=
  p.1 == d

/-- The singleton entry produced by the first record with identifier `d` in
`l`, or nothing when no record has it. -/
def foundEntry (d : String) (l : List Doc) : List (String × Doc) :=
  match l.find? (hasId d) with
  | some doc => [(d, doc)]
  | none => []

theorem comprehensiveDedup_eq_foldl (results : String → List Doc) :
    ∀ (ts : List String) (m : List (String × Doc)),
      ts.foldl (fun m term => (results term).foldl addDoc m) m =
        (termResults results ts).foldl addDoc m := by
  intro ts
  induction ts with
  | nil => intro m; rfl
  | cons t ts ih =>
    intro m
    simp only [List.foldl_cons, termResults, List.foldl_append]
    exact ih _

theorem lookup_append_of_isSome (d : String) (l : List (String × Doc)) :
    ∀ m : List (String × Doc), (m.lookup d).isSome → (m ++ l).lookup d = m.lookup d := by
  intro m
  induction m with
  | nil => intro h; exact Bool.noConfusion h
  | cons p t ih =>
    intro h
    cases p with
    | mk k v =>
      cases hp : (d == k) with
      | true => simp [List.lookup, hp]
      | false =>
        simp only [List.cons_append, List.lookup, hp] at h ⊢
        exact ih h

theorem lookup_append_of_none (d : String) (l : List (String × Doc)) :
    ∀ m : List (String × Doc), m.lookup d = none → (m ++ l).lookup d = l.lookup d := by
  intro m
  induction m with
  | nil => intro _; rfl
  | cons p t ih =>
    intro h
    cases p with
    | mk k v =>
      cases hp : (d == k) with
      | true => simp [List.lookup, hp] at h
      | false =>
        simp only [List.lookup, hp] at h
        simp only [List.cons_append, List.lookup, hp]
        exact ih h

theorem lookup_append_single_ne (d i : String) (doc : Doc) (m : List (String × Doc))
    (hne : i ≠ d) : (m ++ [(i, doc)]).lookup d = m.lookup d := by
  cases h : m.lookup d with
  | some x => rw [lookup_append_of_isSome d [(i, doc)] m (by simp [h]), h]
  | none =>
    rw [lookup_append_of_none d [(i, doc)] m h]
    have : (d == i) = false := by
      simp [Ne.symm hne]
    simp [List.lookup, this]

theorem foundEntry_cons_of_false (d : String) (doc : Doc) (l : List Doc)
    (h : hasId d doc = false) : foundEntry d (doc :: l) = foundEntry d l := by
  simp [foundEntry, List.find?, h]

theorem foundEntry_cons_of_true (d : String) (doc : Doc) (l : List Doc)
    (h : hasId d doc = true) : foundEntry d (doc :: l) = [(d, doc)] := by
  simp [foundEntry, List.find?, h]

theorem dedup_filter_run (d : String) (hd : d ≠ "") :
    ∀ (l : List Doc) (m : List (String × Doc)),
      (l.foldl addDoc m).filter (keyIs d) =
        m.filter (keyIs d) ++
          (if (m.lookup d).isSome then [] else foundEntry d l) := by
  intro l
  induction l with
  | nil =>
    intro m
    cases h : (m.lookup d).isSome <;> simp [foundEntry, List.find?, h]
  | cons doc l ih =>
    intro m
    simp only [List.foldl_cons]
    cases hnum : doc.document_number with
    | none =>
      have h1 : addDoc m doc = m := by simp [addDoc, hnum]
      have h2 : hasId d doc = false := by simp [hasId, hnum]
      rw [h1, ih m, foundEntry_cons_of_false d doc l h2]
    | some i =>
      by_cases hi : i = ""
      · have h1 : addDoc m doc = m := by
          simp [addDoc, hnum, hi]
        have h2 : hasId d doc = false := by
          simp only [hasId, hnum]
          simp [hi, Ne.symm hd]
        rw [h1, ih m, foundEntry_cons_of_false d doc l h2]
      · by_cases hlk : (m.lookup i).isSome
        · obtain ⟨x, hx⟩ := Option.isSome_iff_exists.mp hlk
          have h1 : addDoc m doc = m := by
            simp [addDoc, hnum, hx]
          rw [h1, ih m]
          by_cases hid : i = d
          · subst hid
            rw [if_pos hlk, if_pos hlk]
          · have h2 : hasId d doc = false := by
              simp only [hasId, hnum]
              simp [hid]
            rw [foundEntry_cons_of_false d doc l h2]
        · have hlknone : m.lookup i = none := by
            cases h : m.lookup i with
            | none => rfl
            | some x => exact absurd (by simp [h]) hlk
          have h1 : addDoc m doc = m ++ [(i, doc)] := by
            simp [addDoc, hnum, hlknone, bne_iff_ne, hi]
          rw [h1, ih (m ++ [(i, doc)])]
          by_cases hid : i = d
          · subst hid
            have h2 : hasId i doc = true := by
              simp [hasId, hnum]
            have hms : ((m ++ [(i, doc)]).lookup i).isSome = true := by
              rw [lookup_append_of_none i [(i, doc)] m hlknone]
              simp [List.lookup]
            rw [foundEntry_cons_of_true i doc l h2, if_pos hms,
              if_neg (by simp [hlknone] : ¬((m.lookup i).isSome = true))]
            simp [List.filter_append, keyIs]
          · have h2 : hasId d doc = false := by
              simp [hasId, hnum, hid]
            have hlu : (m ++ [(i, doc)]).lookup d = m.lookup d :=
              lookup_append_single_ne d i doc m hid
            have hfl : List.filter (keyIs d) [(i, doc)] = [] := by
              simp [keyIs, hid]
            rw [foundEntry_cons_of_false d doc l h2, List.filter_append, hfl,
              List.append_nil, hlu]

theorem termResults_append (results : String → List Doc) (ts1 ts2 : List String) :
    termResults results (ts1 ++ ts2) = termResults results ts1 ++ termResults results ts2 := by
  induction ts1 with
  | nil => rfl
  | cons t ts ih => simp [termResults, ih]

theorem findq_append_left {α : Type} (p : α → Bool) :
    ∀ (l1 l2 : List α) (y : α), l1.find? p = some y → (l1 ++ l2).find? p = some y := by
  intro l1
  induction l1 with
  | nil => intro l2 y h; simp [List.find?] at h
  | cons a t ih =>
    intro l2 y h
    cases hp : p a with
    | true =>
      rw [List.find?_cons_of_pos _ hp] at h
      rw [List.cons_append, List.find?_cons_of_pos _ hp]
      exact h
    | false =>
      rw [List.find?_cons_of_neg _ (by simp [hp])] at h
      rw [List.cons_append, List.find?_cons_of_neg _ (by simp [hp])]
      exact ih l2 y h

theorem exists_findq_eq_some {α : Type} (p : α → Bool) (l : List α)
    (h : ∃ x ∈ l, p x = true) : ∃ y, l.find? p = some y := by
  cases hf : l.find? p with
  | some y => exact ⟨y, rfl⟩
  | none =>
    obtain ⟨x, hx, hpx⟩ := h
    exact absurd hpx (by simpa using List.find?_eq_none.mp hf x hx)

theorem mem_termResults (results : String → List Doc) :
    ∀ (ts : List String) (y : Doc), y ∈ termResults results ts →
      ∃ (k : Nat) (tk : String), ts[k]? = some tk ∧ y ∈ results tk := by
  intro ts
  induction ts with
  | nil => intro y h; simp [termResults] at h
  | cons t ts ih =>
    intro y h
    rcases List.mem_append.mp h with h | h
    · exact ⟨0, t, by simp, h⟩
    · obtain ⟨k, tk, hk, hy⟩ := ih y h
      exact ⟨k + 1, tk, by simpa using hk, hy⟩

theorem dedup_entries_truthy :
    ∀ (l : List Doc) (m : List (String × Doc)),
      (∀ e ∈ m, optTruthy e.2.document_number = true) →
      ∀ e ∈ l.foldl addDoc m, optTruthy e.2.document_number = true := by
  intro l
  induction l with
  | nil => intro m hm e he; exact hm e he
  | cons doc l ih =>
    intro m hm e he
    refine ih (addDoc m doc) ?_ e he
    intro e' he'
    cases hnum : doc.document_number with
    | none =>
      simp only [addDoc, hnum] at he'
      exact hm e' he'
    | some i =>
      simp only [addDoc, hnum] at he'
      by_cases hcond : (i != "" && (m.lookup i).isNone) = true
      · rw [if_pos hcond] at he'
        rcases List.mem_append.mp he' with h | h
        · exact hm e' h
        · have : e' = (i, doc) := by simpa using h
          subst this
          simp only [hnum, optTruthy, Option.getD_some]
          exact (Bool.and_eq_true _ _ |>.mp hcond).1
      · rw [if_neg hcond] at he'
        exact hm e' he'

/-! ### Run orchestration (`run`, `run_comprehensive_search`, `main`) -/

/-- The PDF content obtained for a document in the processing loop:
`download_pdf` is consulted only when `pdf_url` is truthy; its outcome is the
extraction oracle's value. -/
def pdfContentFor (extractOracle : Doc → Option String) (doc : Doc) : Option String :=
  if optTruthy doc.pdf_url then extractOracle doc else none

/-- The processing loop shared by `run` and `run_comprehensive_search`:
`success_count` starts at 0 and is incremented for every document whose
`save_document` call reports success. -/
def processDocuments (docs : List Doc) (extractOracle : Doc → Option String)
    (saveOk : Doc → Option String → Bool) : Nat :=
  docs.foldl
    (fun success_count doc =>
      if saveOk doc (pdfContentFor extractOracle doc) then success_count + 1
      else success_count)
    0

/-- Model of `FederalRegisterAPI.run`: `documents` is the `search_documents`
output; an empty result returns `False`, otherwise the run reports
`success_count > 0`. -/
def run (documents : List Doc) (extractOracle : Doc → Option String)
    (saveOk : Doc → Option String → Bool) : Bool :=
  if documents = [] then false
  else decide (0 < processDocuments documents extractOracle saveOk)

/-- Model of `FederalRegisterAPI.run_comprehensive_search`: merge every term's
results into the dedup mapping, process `list(all_documents.values())`, report
`success_count > 0` (`False` when no unique documents were found). -/
def run_comprehensive_search (search_terms : List String) (results : String → List Doc)
    (extractOracle : Doc → Option String) (saveOk : Doc → Option String → Bool) : Bool :=
  let unique_documents := (comprehensiveDedup search_terms results).map Prod.snd
  if unique_documents = [] then false
  else decide (0 < processDocuments unique_documents extractOracle saveOk)

/-- Model of `sys.exit(0 if success else 1)` in `main`. -/
def sysExit (success : Bool) : Nat :=
  if success then 0 else 1

/-- Model of `main`: pick the mode from `--comprehensive`, run it, and exit
with 0 on success and 1 otherwise. -/
def mainExitCode (comprehensive : Bool) (term_documents : List Doc)
    (search_terms : List String) (results : String → List Doc)
    (extractOracle : Doc → Option String) (saveOk : Doc → Option String → Bool) : Nat :=
  sysExit
    (if comprehensive then run_comprehensive_search search_terms results extractOracle saveOk
     else run term_documents extractOracle saveOk)

theorem processDocuments_go (extractOracle : Doc → Option String)
    (saveOk : Doc → Option String → Bool) :
    ∀ (docs : List Doc) (n : Nat),
      docs.foldl
        (fun success_count doc =>
          if saveOk doc (pdfContentFor extractOracle doc) then success_count + 1
          else success_count)
        n =
        n + docs.countP (fun doc => saveOk doc (pdfContentFor extractOracle doc)) := by
  intro docs
  induction docs with
  | nil => intro n; simp
  | cons doc docs ih =>
    intro n
    by_cases h : saveOk doc (pdfContentFor extractOracle doc) = true
    · simp only [List.foldl_cons, List.countP_cons, h, if_pos, ih]
      omega
    · have h' : saveOk doc (pdfContentFor extractOracle doc) = false := by
        cases hb : saveOk doc (pdfContentFor extractOracle doc)
        · rfl
        · exact absurd hb h
      simp only [List.foldl_cons, List.countP_cons, h', ih]
      simp

theorem run_true_iff (documents : List Doc) (extractOracle : Doc → Option String)
    (saveOk : Doc → Option String → Bool) :
    run documents extractOracle saveOk = true ↔
      ∃ doc ∈ documents, saveOk doc (pdfContentFor extractOracle doc) = true := by
  by_cases hd : documents = []
  · subst hd
    simp [run]
  · rw [run, if_neg hd]
    rw [processDocuments, processDocuments_go]
    simp [List.countP_pos_iff]

/-! ### Claim theorems -/

/-- C8: for every search term, if the underlying API request fails (transport
error or non-2xx status, either of which raises inside `api_request` and is
caught there), `search_documents` returns an empty sequence; the failure is
absorbed into a `None` payload instead of propagating to the caller. -/
theorem search_documents_request_failure_empty (err : String) (maxDocs : Nat) :
    search_documents (api_request (Except.error err)) maxDocs = [] := rfl

/-- C3: `search_documents` returns exactly the records with a truthy PDF URL
whose lower-cased title+abstract contains at least one keyword of the fixed
`ai_keywords` set, in the original order, truncated to `max_docs`; and the
keyword match is case-insensitive — a record whose title contains
"Artificial Intelligence" or "artificial intelligence" passes the keyword
match and is retained by the filtering loop. -/
theorem search_documents_filter_spec (results : List Doc) (maxDocs : Nat) :
    search_documents (some results) maxDocs =
      (results.filter fun doc => optTruthy doc.pdf_url && keywordMatch doc).take maxDocs ∧
    ∀ doc ∈ results, optTruthy doc.pdf_url = true →
      (occursInL "Artificial Intelligence".data (doc.title.getD "").data = true ∨
        occursInL "artificial intelligence".data (doc.title.getD "").data = true) →
      keywordMatch doc = true ∧ doc ∈ collectAiDocs results := by
  constructor
  · simp [search_documents, collectAiDocs_eq_filter]
  · intro doc hmem hpdf hocc
    have hkey : occursInL "artificial intelligence".data
        (lowerChars (doc.title.getD "").data) = true := by
      rcases hocc with h | h
      · have hmap := occursInL_map Char.toLower _ _ h
        rw [show ("Artificial Intelligence".data.map Char.toLower) =
            "artificial intelligence".data from by decide] at hmap
        exact hmap
      · have hmap := occursInL_map Char.toLower _ _ h
        rw [show ("artificial intelligence".data.map Char.toLower) =
            "artificial intelligence".data from by decide] at hmap
        exact hmap
    have hcontent : occursInL "artificial intelligence".data (contentChars doc) = true :=
      occursInL_append _ _ _ hkey
    have hk : keywordMatch doc = true := by
      simp only [keywordMatch, List.any_eq_true]
      exact ⟨"artificial intelligence", by simp [aiKeywords], hcontent⟩
    refine ⟨hk, ?_⟩
    rw [collectAiDocs_eq_filter]
    exact List.mem_filter.mpr ⟨hmem, by simp [hpdf, hk]⟩

/-- A record with a truthy PDF URL and an upper-cased keyword in its title. -/
def docCaseUpper : Doc :=
  ⟨some "Artificial Intelligence Initiative", none, none,
   some "https://example.gov/a.pdf", some "2024-01-01", [], some "2024-00010",
   some "NOTICE"⟩

/-- A record with a truthy PDF URL and a lower-cased keyword in its title. -/
def docCaseLower : Doc :=
  ⟨some "Notice on artificial intelligence tools", none, none,
   some "https://example.gov/b.pdf", some "2024-01-02", [], some "2024-00011",
   some "RULE"⟩

theorem search_documents_filter_spec_witness :
    keywordMatch docCaseUpper = true ∧
    docCaseUpper ∈ collectAiDocs [docCaseUpper, docCaseLower] ∧
    keywordMatch docCaseLower = true ∧
    docCaseLower ∈ collectAiDocs [docCaseUpper, docCaseLower] := by
  have h := (search_documents_filter_spec [docCaseUpper, docCaseLower] 20).2
  have hu := h docCaseUpper (by simp) (by decide) (Or.inl (by decide))
  have hl := h docCaseLower (by simp) (by decide) (Or.inr (by decide))
  exact ⟨hu.1, hu.2, hl.1, hl.2⟩

/-- C4: the filename derived by `save_document` is the date, a hyphen, the
sanitized title (strip characters outside word/whitespace/hyphen, collapse
runs of whitespace/hyphen to a single hyphen, truncate to 50 characters) and
the `.txt` suffix; its length is at most `len(date)+1+50+4`, and — for a
publication date consisting of word characters and hyphens, as ISO dates and
the default `"unknown"` are — it is a stem of word characters and hyphens
followed by the `".txt"` suffix. -/
theorem save_filename_props (title date : String) :
    (saveFilename title date).length ≤ date.length + 1 + 50 + 4 ∧
    ((∀ c ∈ date.data, isWordChar c = true ∨ c = '-') →
      ∃ stem : String, saveFilename title date = stem ++ ".txt" ∧
        ∀ c ∈ stem.data, isWordChar c = true ∨ c = '-') := by
  constructor
  · have h1 : (saveFilename title date).length =
        date.length + 1 + (safeTitleChars title).length + 4 := by
      simp [saveFilename, String.length_append, String.length_mk]
      rfl
    have h2 : (safeTitleChars title).length ≤ 50 :=
      List.length_take_le 50 (collapseRuns (stripChars title.data))
    omega
  · intro hdate
    refine ⟨date ++ "-" ++ String.mk (safeTitleChars title), rfl, ?_⟩
    intro c hc
    rw [String.data_append, String.data_append] at hc
    rcases List.mem_append.mp hc with hc | hc
    · rcases List.mem_append.mp hc with hc | hc
      · exact hdate c hc
      · have : c = '-' := by simpa using hc
        exact Or.inr this
    · have hc1 : c ∈ collapseRuns (stripChars title.data) :=
        List.take_subset 50 _ hc
      exact collapseGo_mem false _ (fun x hx => stripChars_mem _ x hx) c hc1

theorem save_filename_props_witness :
    (saveFilename "AI Safety: Oversight & Governance!" "2024-01-15").length ≤ 65 ∧
    ∃ stem : String,
      saveFilename "AI Safety: Oversight & Governance!" "2024-01-15" = stem ++ ".txt" ∧
      ∀ c ∈ stem.data, isWordChar c = true ∨ c = '-' := by
  have h := save_filename_props "AI Safety: Oversight & Governance!" "2024-01-15"
  refine ⟨?_, h.2 (by decide)⟩
  have h1 := h.1
  have h10 : ("2024-01-15" : String).length = 10 := rfl
  rw [h10] at h1
  omega

/-- C7: the file body written by `save_document` is exactly the spec's
format — the fixed header block, then the abstract section when the abstract
is present, then either the full extracted content section or, whenever
extraction yielded nothing, the PDF-URL note. -/
theorem document_text_matches_spec_body (doc : Doc) (pdf_content : Option String)
    (now : String) :
    document_text doc pdf_content now = specFileBody doc pdf_content now := by
  rw [document_text_decomp]
  apply String.ext
  by_cases ha : optTruthy doc.abstract = true <;>
    by_cases hp : optTruthy pdf_content = true <;>
      simp [headerBeforeTs, afterTs, specFileBody, specHeaderBlock, specAbstractSection,
        specContentSection, ha, hp, String.data_append, List.append_assoc]

/-- C9: two invocations of the body builder of `save_document` with identical
document and extracted text differ only in the embedded download timestamp:
both outputs are the same fixed parts around the respective timestamp. -/
theorem document_text_timestamp_only_difference (doc : Doc) (pdf_content : Option String)
    (t1 t2 : String) :
    ∃ p s : String,
      document_text doc pdf_content t1 = p ++ (t1 ++ s) ∧
      document_text doc pdf_content t2 = p ++ (t2 ++ s) := by
  refine ⟨headerBeforeTs doc, afterTs doc pdf_content, ?_, ?_⟩ <;>
    rw [document_text_decomp, strAppend_assoc]

/-- An oracle whose first attempt parses the PDF but yields no page text,
while every later attempt would yield text. -/
def c1Oracle : Nat → Attempt :=
  fun n => if n = 0 then Attempt.pages [""] else Attempt.pages ["Recovered text"]

/-- C1 counterexample: the claim says that when an attempt's extraction
yields no text, `download_pdf` waits 2 seconds and retries up to
`max_retries` attempts.  On `c1Oracle` with the default `max_retries = 3`,
attempt 1 parses but yields no text, and a retry would have recovered text —
yet `download_pdf` returns nothing after exactly one attempt and zero sleeps,
so the no-text case is not retried. -/
theorem download_pdf_no_text_no_retry_cex :
    (download_pdf "https://example.gov/doc.pdf" c1Oracle 3).result = none ∧
    (download_pdf "https://example.gov/doc.pdf" c1Oracle 3).attemptsUsed = 1 ∧
    (download_pdf "https://example.gov/doc.pdf" c1Oracle 3).sleeps = 0 ∧
    extractTextContent ["Recovered text"] ≠ [] := by
  exact ⟨rfl, rfl, rfl, by decide⟩

/-- C1 (amended): only a raising fetch/parse is retried — with a 2-second
wait except after the final attempt — up to `max_retries` attempts total,
after which `download_pdf` returns nothing and makes no further attempts;
an attempt that parses but yields no text returns nothing immediately
without retrying. -/
theorem download_pdf_retry_amended (url : String) (oracle : Nat → Attempt) (m : Nat)
    (hurl : url ≠ "") :
    ((∀ a, a < m → oracle a = Attempt.failure) →
      download_pdf url oracle m = ⟨none, m, m - 1⟩) ∧
    (∀ ps, 0 < m → oracle 0 = Attempt.pages ps → extractTextContent ps = [] →
      download_pdf url oracle m = ⟨none, 1, 0⟩) := by
  constructor
  · intro hfail
    rw [download_pdf, if_neg hurl]
    have h := downloadPdfGo_all_failures oracle m hfail m 0 0 (by omega)
    simpa using h
  · intro ps hm h0 hempty
    obtain ⟨r, rfl⟩ : ∃ r, m = r + 1 := ⟨m - 1, by omega⟩
    rw [download_pdf, if_neg hurl]
    simp [downloadPdfGo, h0, hempty]

theorem download_pdf_retry_amended_witness :
    download_pdf "https://example.gov/a.pdf" (fun _ => Attempt.failure) 3 = ⟨none, 3, 2⟩ ∧
    download_pdf "https://example.gov/a.pdf" (fun _ => Attempt.pages ["", ""]) 3 =
      ⟨none, 1, 0⟩ := by
  constructor
  · exact (download_pdf_retry_amended "https://example.gov/a.pdf"
      (fun _ => Attempt.failure) 3 (by decide)).1 (fun a _ => rfl)
  · exact (download_pdf_retry_amended "https://example.gov/a.pdf"
      (fun _ => Attempt.pages ["", ""]) 3 (by decide)).2 ["", ""] (by decide) rfl rfl

/-- C2: in a comprehensive run, whenever two search terms at positions
`i < j` of the term list both return a record with the same truthy document
identifier `d`, the deduplicated mapping contains exactly one entry keyed
`d`, and its record is the first one carrying `d` in term order — it comes
from a term at position at most `i`, so later terms' duplicates are skipped
and never overwrite it. -/
theorem comprehensive_dedup_first_term_wins (search_terms : List String)
    (results : String → List Doc) (d ti tj : String) (i j : Nat)
    (hd : d ≠ "") (hij : i < j)
    (hi : search_terms[i]? = some ti) (hj : search_terms[j]? = some tj)
    (h1 : ∃ doc ∈ results ti, hasId d doc = true)
    (h2 : ∃ doc ∈ results tj, hasId d doc = true) :
    ∃ (doc : Doc) (k : Nat) (tk : String), k ≤ i ∧ search_terms[k]? = some tk ∧
      doc ∈ results tk ∧ hasId d doc = true ∧
      (comprehensiveDedup search_terms results).filter (keyIs d) = [(d, doc)] := by
  have hfilter : (comprehensiveDedup search_terms results).filter (keyIs d) =
      foundEntry d (termResults results search_terms) := by
    rw [comprehensiveDedup, comprehensiveDedup_eq_foldl, dedup_filter_run d hd]
    simp [List.lookup]
  have hsplit : termResults results search_terms =
      termResults results (search_terms.take (i + 1)) ++
        termResults results (search_terms.drop (i + 1)) := by
    conv_lhs => rw [← List.take_append_drop (i + 1) search_terms]
    exact termResults_append results _ _
  obtain ⟨doc1, hdoc1, hid1⟩ := h1
  have hmem1 : doc1 ∈ termResults results (search_terms.take (i + 1)) := by
    have htake : search_terms.take (i + 1) = search_terms.take i ++ [ti] := by
      rw [List.take_succ, hi]
      rfl
    rw [htake, termResults_append]
    exact List.mem_append.mpr (Or.inr (by simp [termResults, hdoc1]))
  obtain ⟨y, hy⟩ := exists_findq_eq_some (hasId d) _ ⟨doc1, hmem1, hid1⟩
  have hyP : y ∈ termResults results (search_terms.take (i + 1)) :=
    List.mem_of_find?_eq_some hy
  have hyId : hasId d y = true := List.find?_some hy
  have hfind : (termResults results search_terms).find? (hasId d) = some y := by
    rw [hsplit]
    exact findq_append_left _ _ _ _ hy
  obtain ⟨k, tk, hk, hyk⟩ := mem_termResults results _ y hyP
  have hk' : k ≤ i ∧ search_terms[k]? = some tk := by
    rw [List.getElem?_take] at hk
    by_cases hki : k < i + 1
    · rw [if_pos hki] at hk
      exact ⟨by omega, hk⟩
    · rw [if_neg hki] at hk
      exact absurd hk (by simp)
  refine ⟨y, k, tk, hk'.1, hk'.2, hyk, hyId, ?_⟩
  rw [hfilter, foundEntry, hfind]

/-- A record with identifier `2024-00001` returned by the first term. -/
def docA : Doc :=
  ⟨some "AI executive order implementation", none, none,
   some "https://example.gov/a.pdf", some "2024-01-01", [], some "2024-00001",
   some "RULE"⟩

/-- A record with the same identifier `2024-00001` returned by the second
term. -/
def docB : Doc :=
  ⟨some "AI executive order implementation (duplicate)", none, none,
   some "https://example.gov/b.pdf", some "2024-01-02", [], some "2024-00001",
   some "NOTICE"⟩

/-- Result sequences of a two-term comprehensive run in which both terms
return a record with identifier `2024-00001`. -/
def twoTermResults : String → List Doc :=
  fun t => if t = "artificial intelligence" then [docA] else [docB]

theorem comprehensive_dedup_first_term_wins_witness :
    ∃ (doc : Doc) (k : Nat) (tk : String), k ≤ 0 ∧
      (["artificial intelligence", "machine learning"])[k]? = some tk ∧
      doc ∈ twoTermResults tk ∧ hasId "2024-00001" doc = true ∧
      (comprehensiveDedup ["artificial intelligence", "machine learning"]
        twoTermResults).filter (keyIs "2024-00001") = [("2024-00001", doc)] :=
  comprehensive_dedup_first_term_wins ["artificial intelligence", "machine learning"]
    twoTermResults "2024-00001" "artificial intelligence" "machine learning" 0 1
    (by decide) (by decide) rfl rfl
    ⟨docA, by decide, by decide⟩ ⟨docB, by decide, by decide⟩

/-- C5: a run — single-term or comprehensive — reports success exactly when
at least one `save_document` call succeeded, the process exit code is 0
exactly when the run reported success and 1 exactly when it did not, and
zero qualifying documents yields exit code 1. -/
theorem run_success_and_exit_code (documents : List Doc) (search_terms : List String)
    (results : String → List Doc) (extractOracle : Doc → Option String)
    (saveOk : Doc → Option String → Bool) :
    (run documents extractOracle saveOk = true ↔
      ∃ doc ∈ documents, saveOk doc (pdfContentFor extractOracle doc) = true) ∧
    (run_comprehensive_search search_terms results extractOracle saveOk = true ↔
      ∃ doc ∈ (comprehensiveDedup search_terms results).map Prod.snd,
        saveOk doc (pdfContentFor extractOracle doc) = true) ∧
    (∀ success : Bool,
      (sysExit success = 0 ↔ success = true) ∧ (sysExit success = 1 ↔ success = false)) ∧
    (documents = [] →
      mainExitCode false documents search_terms results extractOracle saveOk = 1) ∧
    ((comprehensiveDedup search_terms results).map Prod.snd = [] →
      mainExitCode true documents search_terms results extractOracle saveOk = 1) := by
  refine ⟨run_true_iff documents extractOracle saveOk, ?_, ?_, ?_, ?_⟩
  · have hcomp : run_comprehensive_search search_terms results extractOracle saveOk =
        run ((comprehensiveDedup search_terms results).map Prod.snd) extractOracle saveOk :=
      rfl
    rw [hcomp]
    exact run_true_iff _ _ _
  · intro success
    cases success <;> simp [sysExit]
  · intro h
    simp [mainExitCode, run, h, sysExit]
  · intro h
    simp [mainExitCode, run_comprehensive_search, h, sysExit]

theorem run_success_and_exit_code_witness :
    mainExitCode false [] [] (fun _ => []) (fun _ => none) (fun _ _ => false) = 1 ∧
    mainExitCode true [] [] (fun _ => []) (fun _ => none) (fun _ _ => false) = 1 := by
  have h := run_success_and_exit_code [] [] (fun _ => []) (fun _ => none) (fun _ _ => false)
  exact ⟨h.2.2.2.1 rfl, h.2.2.2.2 rfl⟩

/-- C6: for a PDF whose pages yield some text (here: a first attempt that
parses into the page texts `ps`, at least one of them non-empty),
`download_pdf` returns exactly the blocks `--- Page N ---`, trimmed page
text, blank separator — one block per page with non-empty text, numbered by
the page's 1-based position among all pages and in source page order —
joined by newlines; pages yielding no text are omitted. -/
theorem download_pdf_page_structure (url : String) (oracle : Nat → Attempt)
    (m : Nat) (ps : List String) (hurl : url ≠ "") (hm : 0 < m)
    (h0 : oracle 0 = Attempt.pages ps) (hsome : ∃ t ∈ ps, t ≠ "") :
    (download_pdf url oracle m).result =
      some (String.intercalate "\n" (specPageBlocks 1 ps)) := by
  obtain ⟨r, rfl⟩ : ∃ r, m = r + 1 := ⟨m - 1, by omega⟩
  have hne : extractTextContent ps ≠ [] := by
    rw [extractTextContent_eq_specPageBlocks]
    intro hnil
    obtain ⟨t, ht, htne⟩ := hsome
    exact htne ((specPageBlocks_eq_nil ps 1).mp hnil t ht)
  rw [download_pdf, if_neg hurl]
  simp only [downloadPdfGo, h0]
  rw [if_neg hne]
  simp [extractTextContent_eq_specPageBlocks]

theorem download_pdf_page_structure_witness :
    (download_pdf "https://example.gov/doc.pdf"
      (fun _ => Attempt.pages ["First page ", "", "Second page"]) 3).result =
      some "--- Page 1 ---\nFirst page\n\n--- Page 3 ---\nSecond page\n" := by
  have h := download_pdf_page_structure "https://example.gov/doc.pdf"
    (fun _ => Attempt.pages ["First page ", "", "Second page"]) 3
    ["First page ", "", "Second page"] (by decide) (by decide) rfl
    ⟨"First page ", by simp, by decide⟩
  rw [h]
  rfl

/-- C10: in a comprehensive run, a record whose `document_number` is missing
or empty is never inserted into the deduplicated mapping, so it is absent
from the processed collection `list(all_documents.values())` — it is never
extracted, written, or counted. -/
theorem untruthy_document_number_never_processed (search_terms : List String)
    (results : String → List Doc) (doc : Doc)
    (h : optTruthy doc.document_number = false) :
    doc ∉ (comprehensiveDedup search_terms results).map Prod.snd := by
  intro hmem
  obtain ⟨e, he, hsnd⟩ := List.mem_map.mp hmem
  have he' : e ∈ (termResults results search_terms).foldl addDoc [] := by
    rw [comprehensiveDedup, comprehensiveDedup_eq_foldl] at he
    exact he
  have htruthy := dedup_entries_truthy (termResults results search_terms) []
    (by simp) e he'
  rw [hsnd, h] at htruthy
  exact Bool.noConfusion htruthy

/-- A record with a truthy PDF URL but no `document_number`. -/
def docNoNumber : Doc :=
  ⟨some "Artificial intelligence request for comment", none, none,
   some "https://example.gov/n.pdf", some "2024-02-02", [], none, some "NOTICE"⟩

theorem untruthy_document_number_never_processed_witness :
    docNoNumber ∉ (comprehensiveDedup ["artificial intelligence"]
      (fun _ => [docNoNumber])).map Prod.snd :=
  untruthy_document_number_never_processed ["artificial intelligence"]
    (fun _ => [docNoNumber]) docNoNumber rfl

end FedReg
